import Mathlib

/-!
Verification development for the EDU-Bot Telegram bot (src/src).

The definitions below are a shallow embedding of the Python source:
pure fragments become Lean functions, the sqlite-backed state becomes
explicit values passed in and out, and code that can raise an uncaught
exception returns an `Option`/sum with a distinguished crash value.
Python `datetime` values are modelled with minute precision, which is
exact for every comparison the embedded code performs (all constructed
datetimes have zero seconds and microseconds, and comparing a
second-precise `now` against a minute-precise value gives the same
boolean as comparing its minute truncation).
-/

namespace EduBot

/-- Model of Python `datetime.datetime` restricted to the five fields the
bot ever sets (seconds and microseconds of constructed values are 0). -/
structure DateTime where
  year : Nat
  month : Nat
  day : Nat
  hour : Nat
  minute : Nat
deriving DecidableEq, Repr

/-- Python `datetime` comparison `a < b`: lexicographic on
(year, month, day, hour, minute). -/
def dtLtB (a b : DateTime) : Bool :=
  decide (a.year < b.year) ||
    (decide (a.year = b.year) &&
      (decide (a.month < b.month) ||
        (decide (a.month = b.month) &&
          (decide (a.day < b.day) ||
            (decide (a.day = b.day) &&
              (decide (a.hour < b.hour) ||
                (decide (a.hour = b.hour) && decide (a.minute < b.minute))))))))

/-- Gregorian leap-year rule, as implemented by Python `datetime`. -/
def isLeapYear (y : Nat) : Bool :=
  y % 4 = 0 && (y % 100 ≠ 0 || y % 400 = 0)

/-- Length of a month in the Gregorian calendar (Python `datetime`). -/
def monthLength (y m : Nat) : Nat :=
  if m = 2 then (if isLeapYear y then 29 else 28)
  else if m = 4 ∨ m = 6 ∨ m = 9 ∨ m = 11 then 30
  else 31

/-- Day count of a civil date (valid for year ≥ 1), used only to compute
weekdays; proleptic Gregorian calendar, matching Python `datetime`. -/
def daysFromCivil (y m d : Nat) : Nat :=
  let yAdj := if m ≤ 2 then y - 1 else y
  let era := yAdj / 400
  let yoe := yAdj % 400
  let mp := (m + 9) % 12
  let doy := (153 * mp + 2) / 5 + d - 1
  let doe := yoe * 365 + yoe / 4 - yoe / 100 + doy
  era * 146097 + doe

/-- Weekday index 0 = Monday .. 6 = Sunday, which is what the source stores:
`int(date.strftime(%u)) - 1`. -/
def weekdayIndex (y m d : Nat) : Nat :=
  (daysFromCivil y m d + 2) % 7

/-- Python `datetime(y, m, d, hh, mm)`: `none` models the `ValueError`
raised on an invalid calendar date or time. -/
def mkDatetime (y m d hh mm : Nat) : Option DateTime :=
  if 1 ≤ y ∧ 1 ≤ m ∧ m ≤ 12 ∧ 1 ≤ d ∧ d ≤ monthLength y m ∧ hh ≤ 23 ∧ mm ≤ 59 then
    some ⟨y, m, d, hh, mm⟩
  else
    none

/-- Structured form of one stored event line prefix
`weekday dd.mm[, hh:mm]`: the exact data `str_to_datetime` reads back by
character positions from the stored string. -/
structure EventEntry where
  weekday : Nat
  day : Nat
  month : Nat
  time : Option (Nat × Nat)
deriving DecidableEq, Repr

/-- One stored event line: the serialized date prefix plus the free-text
label that follows the em-dash. -/
structure StoredEvent where
  entry : EventEntry
  label : String
deriving DecidableEq, Repr

/-- Embedding of `src.auxiliary.str_to_datetime`: reconstructs a datetime
from a stored event prefix, defaulting time to 23:59 and choosing the
year by comparing the stored weekday with the weekday the date has in the
current year. `none` models an uncaught `ValueError` from the `datetime`
constructor. -/
def str_to_datetime (e : EventEntry) (now : DateTime) : Option DateTime :=
  let hh := match e.time with | some t => t.1 | none => 23
  let mm := match e.time with | some t => t.2 | none => 59
  match mkDatetime now.year e.month e.day hh mm with
  | none => none
  | some dateThisYear =>
    let wThisYear := weekdayIndex now.year e.month e.day
    if e.weekday > wThisYear ∨ (e.weekday = 0 ∧ wThisYear = 6) then
      mkDatetime (now.year + 1) e.month e.day hh mm
    else if e.weekday < wThisYear ∨ (e.weekday = 6 ∧ wThisYear = 0) then
      mkDatetime (now.year - 1) e.month e.day hh mm
    else
      some dateThisYear

/-- One match of `src.config.DATE_PATTERN` as extracted by `re.findall`:
day, month, and the optional (hour, minute) group. -/
structure DateMatch where
  day : Nat
  month : Nat
  time : Option (Nat × Nat)
deriving DecidableEq, Repr

/-- Result of `AddingEvent.inspect_date`: one constructor per distinct
user-facing rejection message, `valueError` for the uncaught exception the
`datetime` constructor can raise, and `ok` carrying the resolved date, the
derived weekday index and the serialized entry `self.date_str`. -/
inductive InspectResult where
  | invalidDate
  | multipleDates
  | monthOver12
  | month0
  | dayOverMonthLength
  | day0
  | invalidHour
  | invalidMinute
  | valueError
  | ok (date : DateTime) (weekday : Nat) (entry : EventEntry)
deriving DecidableEq, Repr

/-- Final step of `inspect_date` once all range checks passed: build
`date_this_year = datetime(now.year, month, day, hour, minute)`, keep it
if still in the future, otherwise build the same date in `now.year + 1`.
Either construction can raise (`valueError`). -/
def resolve_date (now : DateTime) (day month hour minute : Nat) (timeGiven : Bool) :
    InspectResult :=
  match mkDatetime now.year month day hour minute with
  | none => .valueError
  | some dateThisYear =>
    if dtLtB now dateThisYear then
      let w := weekdayIndex now.year month day
      .ok dateThisYear w ⟨w, day, month, if timeGiven then some (hour, minute) else none⟩
    else
      match mkDatetime (now.year + 1) month day hour minute with
      | none => .valueError
      | some dateNextYear =>
        let w := weekdayIndex (now.year + 1) month day
        .ok dateNextYear w ⟨w, day, month, if timeGiven then some (hour, minute) else none⟩

/-- Embedding of `AddingEvent.inspect_date`. The input models the list of
`DATE_PATTERN` matches found in the entered text. February length is taken
from the next occurrence of February, using the source's `% 4` test. -/
def inspect_date (dates : List DateMatch) (now : DateTime) : InspectResult :=
  match dates with
  | [] => .invalidDate
  | _ :: _ :: _ => .multipleDates
  | [m] =>
    if m.month ≤ 12 then
      if 1 ≤ m.month then
        let nextFebruaryYear := if 2 < now.month then now.year + 1 else now.year
        let nextFebruaryLength := if nextFebruaryYear % 4 ≠ 0 then 28 else 29
        let lengths := [31, nextFebruaryLength, 31, 30, 31, 30, 31, 31, 30, 31, 30, 31]
        if m.day ≤ lengths.getD (m.month - 1) 0 then
          if 1 ≤ m.day then
            match m.time with
            | some (h, mi) =>
              if h ≤ 23 then
                if mi ≤ 59 then resolve_date now m.day m.month h mi true
                else .invalidMinute
              else .invalidHour
            | none => resolve_date now m.day m.month 23 59 false
          else .day0
        else .dayOverMonthLength
      else .month0
    else .monthOver12

/-- Resolution of every stored event line through `str_to_datetime` at the
moment `now`; `none` if any line makes the reconstruction raise. -/
def resolvedKeys (now : DateTime) : List StoredEvent → Option (List DateTime)
  | [] => some []
  | e :: es =>
    Option.bind (str_to_datetime e.entry now) fun k =>
      Option.map (fun ks => k :: ks) (resolvedKeys now es)

/-- Ascending order used by the stored list: an earlier entry is never
strictly later than a later one (Python `>` returning False). -/
def dtGe (a b : DateTime) : Prop := dtLtB a b = false

instance (a b : DateTime) : Decidable (dtGe a b) := by
  unfold dtGe
  infer_instance

/-- The scan of `AddingEvent.save_event` on the reversed stored list: walk
from the latest stored event towards the earliest, insert the new line
right after the first line whose reconstructed datetime is earlier than
`date` (`self.date > str_to_datetime(...)` in the source), and at the
front if no line is. `none` models `str_to_datetime` raising mid-scan. -/
def saveScan (now date : DateTime) (ev : StoredEvent) :
    List StoredEvent → Option (List StoredEvent)
  | [] => some [ev]
  | e :: es =>
    match str_to_datetime e.entry now with
    | none => none
    | some k =>
      if dtLtB k date then some (ev :: e :: es)
      else (saveScan now date ev es).map (e :: ·)

/-- Embedding of `AddingEvent.save_event`: `stored = none` models a group
with no `events` value (the new line becomes the whole list); otherwise the
new line is spliced into the existing lines by the backwards scan. `date`
is `self.date` and `ev` the serialized new line. -/
def save_event (now date : DateTime) (ev : StoredEvent)
    (stored : Option (List StoredEvent)) : Option (List StoredEvent) :=
  match stored with
  | none => some [ev]
  | some events => (saveScan now date ev events.reverse).map List.reverse

/-- Swap of `dtGe` used when flipping between the stored (ascending) list
and the reversed (descending) scan order. -/
def dtLe (a b : DateTime) : Prop := dtLtB b a = false

instance (a b : DateTime) : Decidable (dtLe a b) := by
  unfold dtLe
  infer_instance

/-- Decidable sortedness check of a stored list at a moment `now`: every
line reconstructs, and the reconstructed datetimes never decrease. -/
def sortedStored (now : DateTime) (l : List StoredEvent) : Prop :=
  match resolvedKeys now l with
  | none => False
  | some ks => ks.Pairwise dtLe

instance (now : DateTime) (l : List StoredEvent) : Decidable (sortedStored now l) := by
  unfold sortedStored
  rcases resolvedKeys now l with _ | ks
  · exact inferInstanceAs (Decidable False)
  · exact inferInstanceAs (Decidable (List.Pairwise dtLe ks))

/-- Transient state of a `LeaderConfirmation` instance: the two tallies,
whether the poll is still open (the instance still registered under the
group id), the decided outcome if any, and how many cheating notices have
been sent to the group chat. -/
structure LCState where
  numVotes : Nat
  numPositiveVotes : Nat
  pollOpen : Bool
  outcome : Option Bool
  cheatingNotices : Nat
deriving DecidableEq, Repr

/-- State right after `LeaderConfirmation.__init__` sent the poll. -/
def lcInitial : LCState :=
  ⟨0, 0, true, none, 0⟩

/-- Embedding of `LeaderConfirmation.handle_result`: the candidate is
confirmed iff `num_positive_votes / quorum > 0.5`. For the integer ranges
involved the float comparison of the source equals `2 * positive > quorum`. -/
def handle_result (quorum positiveVotes : Nat) : Bool :=
  quorum < 2 * positiveVotes

/-- A poll-answer update: the answering user and the chosen option id
(`option_ids[0]` of the source, 0 = positive, 1 = negative). -/
structure PollAnswer where
  userId : Nat
  optionId : Nat
deriving DecidableEq, Repr

/-- Embedding of `LeaderConfirmation.handle_answer`. `upd = none` models an
update that is not a poll answer (ignored). An answer by the candidate is
not tallied and sends a cheating notice. Otherwise the vote is tallied and,
exactly when the tally reaches the quorum, the poll is closed and
`handle_result` decides the outcome. -/
def handle_answer (quorum candidate : Nat) (st : LCState) (upd : Option PollAnswer) :
    LCState :=
  match upd with
  | none => st
  | some ans =>
    if ans.userId ≠ candidate then
      let nv := st.numVotes + 1
      let np := if ans.optionId = 0 then st.numPositiveVotes + 1 else st.numPositiveVotes
      if nv = quorum then
        ⟨nv, np, false, some (handle_result quorum np), st.cheatingNotices⟩
      else
        ⟨nv, np, st.pollOpen, st.outcome, st.cheatingNotices⟩
    else
      ⟨st.numVotes, st.numPositiveVotes, st.pollOpen, st.outcome, st.cheatingNotices + 1⟩

/-- Folding `handle_answer` over a sequence of inbound updates. -/
def lcRun (quorum candidate : Nat) (st : LCState) (upds : List (Option PollAnswer)) :
    LCState :=
  upds.foldl (handle_answer quorum candidate) st

/-- The partial group id accumulated by `Registration.ask_group_name`: the
chosen EDU's id shifted by two digits plus the department id. -/
def departmentPrefix (eduId departmentId : Nat) : Nat :=
  eduId * 100 + departmentId

/-- Embedding of `Registration.determine_group_id`. `records` is the list
returned for `SELECT id, name FROM groups WHERE id / 1000 = prefix` (the
groups table's primary-key scan lists them in ascending id order). The
result pairs the chosen group id with `is_first` (whether a new group
record is created). With no group in the department the id is the prefix
shifted by three digits; with no name match it is one more than the id of
the last listed record. -/
def determine_group_id (prefix₀ : Nat) (groupName : String)
    (records : List (Nat × String)) : Nat × Bool :=
  match records with
  | [] => (prefix₀ * 1000, true)
  | r :: rs =>
    match (r :: rs).find? (fun p => p.2 = groupName) with
    | some p => (p.1, false)
    | none => ((rs.getLastD r).1 + 1, true)

/-- Embedding of the mutation step of `DeletingInfo.delete_info`: remove
the first block equal to the target (`list.remove`, the `ValueError` on a
missing block being swallowed), then store NULL when the joined remainder
is the empty string. -/
def delete_info (stored : Option (List String)) (infoPiece : String) :
    Option (List String) :=
  match stored with
  | none => none
  | some blocks =>
    let remaining := blocks.erase infoPiece
    if String.intercalate "\n\n" remaining = "" then none else some remaining

/-- Embedding of the mutation step of `CancelingEvent.delete_event`: same
shape as `delete_info` with newline-separated event lines. -/
def delete_event (stored : Option (List String)) (event : String) :
    Option (List String) :=
  match stored with
  | none => none
  | some events =>
    let remaining := events.erase event
    if String.intercalate "\n" remaining = "" then none else some remaining

/-- Embedding of `Interaction.update_familiarity` as called by the
program: `familiarity._replace(field = 1)` followed by the UPDATE. -/
def update_familiarity (familiarity : List Char) (field : Nat) : List Char :=
  familiarity.set field '1'

/-- A sequence of familiarity updates (the fields flipped one at a time by
successive interactions). -/
def familiarityRun (familiarity : List Char) (fields : List Nat) : List Char :=
  fields.foldl update_familiarity familiarity

/-- Runtime state of an `AskingGroup` instance after its second part was
launched. `asked` mirrors the keys of `self.asked`; `reg` the keys of
`current` pointing at this instance. -/
structure AGState where
  asked : List Nat
  reg : List Nat
  answered : List Nat
  refused : List Nat
deriving DecidableEq, Repr

/-- State produced by `AskingGroup.launch`: the groupmates are added to
`asked` and to the registry; in public mode the leader is asked too and
keeps their registry key, in private mode the leader's key is deleted; the
group id is registered last. -/
def ag_launch (leader groupId : Nat) (isPublic : Bool) (groupmates : List Nat) : AGState :=
  { asked := groupmates ++ (if isPublic then [leader] else [])
    reg := (if isPublic then [leader] else []) ++ groupmates ++ [groupId]
    answered := []
    refused := [] }

/-- The response-processing tail of `AskingGroup.handle_response` for a
chat present in `asked` (answer via text, refusal via button): the chat is
dropped from `asked`; when `asked` just became empty the group key is
deregistered; the chat's own key is deregistered last. -/
def ag_respond (groupId : Nat) (st : AGState) (chat : Nat) (isAnswer : Bool) : AGState :=
  let asked₁ := st.asked.erase chat
  let reg₁ := if asked₁.isEmpty then st.reg.erase groupId else st.reg
  { asked := asked₁
    reg := reg₁.erase chat
    answered := if isAnswer then st.answered ++ [chat] else st.answered
    refused := if isAnswer then st.refused else st.refused ++ [chat] }

/-- Embedding of `AskingGroup.terminate`: strip the refuse button of the
leader if they are still pending, then strip the refuse button of every
remaining pending respondent and send them the withdrawal message, and
deregister every key. Returns the new state, the chats whose refuse
affordance was stripped, and the chats informed that the question is
withdrawn (the leader additionally receives the terminated message in
every case). -/
def ag_terminate (leader groupId : Nat) (st : AGState) :
    AGState × List Nat × List Nat :=
  let rest := if leader ∈ st.asked then st.asked.erase leader else st.asked
  let reg₁ := if leader ∈ st.asked then st.reg.erase leader else st.reg
  let reg₂ := (rest.foldl (fun r u => r.erase u) reg₁).erase groupId
  (⟨[], reg₂, st.answered, st.refused⟩,
    (if leader ∈ st.asked then [leader] else []) ++ rest,
    rest)

/-- Inbound updates a launched `AskingGroup` step can receive. -/
inductive AGInput where
  | query (data : String)
  | message (text : String)
deriving DecidableEq, Repr

/-- Observable outcome of one `AskingGroup.handle_response` call. -/
inductive AGOutcome where
  | terminated
  | answerTaken
  | refusalTaken
  | keyErrorRaised
deriving DecidableEq, Repr

/-- Embedding of `AskingGroup.handle_response`: a button click with
payload terminate ends the interaction; any other button click is treated
as a refusal and any text message as an answer — the chat is looked up in
`self.asked`, raising `KeyError` when absent. -/
def handle_response (leader groupId : Nat) (st : AGState) (chat : Nat) (inp : AGInput) :
    AGState × AGOutcome :=
  match inp with
  | .query d =>
    if d = "terminate" then ((ag_terminate leader groupId st).1, .terminated)
    else if chat ∈ st.asked then (ag_respond groupId st chat false, .refusalTaken)
    else (st, .keyErrorRaised)
  | .message _ =>
    if chat ∈ st.asked then (ag_respond groupId st chat true, .answerTaken)
    else (st, .keyErrorRaised)

/-- Folding responses (chat, is-answer) over an `AskingGroup` state. -/
def agRun (groupId : Nat) (st : AGState) (responses : List (Nat × Bool)) : AGState :=
  responses.foldl (fun s r => ag_respond groupId s r.1 r.2) st

/-- Updates as seen by a step function: a button click with its callback
payload, a plain text message, or anything else. -/
inductive StepUpdate where
  | callback (data : String)
  | text (s : String)
  | other
deriving DecidableEq, Repr

/-- Observable outcome of one `Registration.ask_city` call: ignoring the
update, raising `ValueError` from `int(query.data)`, or accepting the
language and moving to the next step. -/
inductive AskCityOutcome where
  | noop
  | valueErrorRaised
  | asked (language : Int)
deriving DecidableEq, Repr

/-- Embedding of `Registration.ask_city`: an update without a callback
query is ignored (`except AttributeError`); with one, `int(query.data)` is
taken as the language — a non-numeric payload makes `int` raise an
uncaught `ValueError`. -/
def ask_city (upd : StepUpdate) : AskCityOutcome :=
  match upd with
  | .callback d =>
    match d.toInt? with
    | some n => .asked n
    | none => .valueErrorRaised
  | _ => .noop

/-- Roles as stored in the chats table. -/
def ordinaryRole : Nat := 0

def adminRole : Nat := 1

def leaderRole : Nat := 2

/-- One registered student record: chat id and role. -/
structure Student where
  id : Nat
  role : Nat
deriving DecidableEq, Repr

/-- State of one group: its student records and the possibly registered
leader confirmation (candidate id plus poll state). -/
structure GroupState where
  students : List Student
  pending : Option (Nat × LCState)
deriving DecidableEq, Repr

/-- `UPDATE chats SET role = r WHERE id = ?` restricted to the group. -/
def updateRole (students : List Student) (id r : Nat) : List Student :=
  students.map (fun s => if s.id = id then ⟨s.id, r⟩ else s)

/-- Role recorded for a chat id, `none` when unregistered. -/
def roleOf (students : List Student) (id : Nat) : Option Nat :=
  (students.find? (fun s => decide (s.id = id))).map Student.role

/-- Commands of the role-management fragment. -/
inductive GroupCmd where
  | claim (candidate : Nat)
  | vote (ans : PollAnswer)
  | trust (invoker target : Nat)
  | distrust (invoker target : Nat)
  | resign (invoker successor : Nat)
deriving DecidableEq, Repr

/-- One command against one group.

claim: entry guard of `managers.leader_confirmation` — the candidate is a
registered non-leader, the group has no leader, and enough groupmates are
registered; the confirmation is then registered under the group key.

vote: a poll answer processed by the registered confirmation through
`LeaderConfirmation.handle_answer`; at quorum the slot is freed and a
confirmed candidate's record is set to the leader role
(`handle_result`).

trust: `adding_admin` ratio guard plus the `add_admin` promotion of a
chosen ordinary student.

distrust: `remove_admin` demotion of a chosen admin.

resign: `change_leader` — the chosen successor (an admin when the group
has admins, otherwise an ordinary student) becomes leader and the invoker
becomes admin in the same step. -/
def groupStep (quorum maxRatio : Nat) (st : GroupState) : GroupCmd → GroupState
  | .claim u =>
    if (∃ r, roleOf st.students u = some r ∧ r ≠ leaderRole) ∧
        (∀ s ∈ st.students, s.role ≠ leaderRole) ∧
        quorum ≤ st.students.length - 1 then
      ⟨st.students, some (u, lcInitial)⟩
    else st
  | .vote ans =>
    match st.pending with
    | none => st
    | some (candidate, lcs) =>
      let lcs₂ := handle_answer quorum candidate lcs (some ans)
      if lcs₂.pollOpen then ⟨st.students, some (candidate, lcs₂)⟩
      else
        ⟨if lcs₂.outcome = some true then updateRole st.students candidate leaderRole
          else st.students,
          none⟩
  | .trust invoker target =>
    if roleOf st.students invoker = some leaderRole ∧
        (st.students.filter (fun s => decide (s.role = adminRole))).length + 1 ≤
          maxRatio * st.students.length ∧
        roleOf st.students target = some ordinaryRole then
      ⟨updateRole st.students target adminRole, st.pending⟩
    else st
  | .distrust invoker target =>
    if roleOf st.students invoker = some leaderRole ∧
        roleOf st.students target = some adminRole then
      ⟨updateRole st.students target ordinaryRole, st.pending⟩
    else st
  | .resign invoker successor =>
    if roleOf st.students invoker = some leaderRole ∧
        (if (st.students.filter (fun s => decide (s.role = adminRole))).length ≠ 0 then
          roleOf st.students successor = some adminRole
        else
          roleOf st.students successor = some ordinaryRole) then
      ⟨updateRole (updateRole st.students successor leaderRole) invoker adminRole,
        st.pending⟩
    else st

/-- Folding commands over a group state. -/
def groupRun (quorum maxRatio : Nat) (st : GroupState) (cmds : List GroupCmd) : GroupState :=
  cmds.foldl (groupStep quorum maxRatio) st

/-- No two distinct records of the group hold the leader role. -/
def atMostOneLeader (students : List Student) : Prop :=
  ∀ s ∈ students, ∀ t ∈ students, s.role = leaderRole → t.role = leaderRole → s = t

/-- Reachability invariant of the role fragment: ids are unique, at most
one record is a leader, and a pending confirmation implies the group is
leaderless (the entry guard found no leader and nothing can add one while
the slot is occupied). -/
def groupInv (st : GroupState) : Prop :=
  (st.students.map Student.id).Nodup ∧ atMostOneLeader st.students ∧
    (st.pending ≠ none → ∀ s ∈ st.students, s.role ≠ leaderRole)

instance (students : List Student) : Decidable (atMostOneLeader students) := by
  unfold atMostOneLeader
  infer_instance

instance (st : GroupState) : Decidable (groupInv st) := by
  unfold groupInv
  infer_instance

/-- Invariant of a launched `AskingGroup`: the pending list and the
registry keys are duplicate-free, the group key is not a respondent, and
the registry keys are exactly the pending respondents plus the group key —
until the interaction ends, at which point both are empty. -/
def agInv (groupId : Nat) (st : AGState) : Prop :=
  st.asked.Nodup ∧ st.reg.Nodup ∧ groupId ∉ st.asked ∧
    ((st.asked = [] ∧ st.reg = []) ∨
      (st.asked ≠ [] ∧ ∀ x, x ∈ st.reg ↔ (x ∈ st.asked ∨ x = groupId)))

theorem dtLtB_trans {a b c : DateTime} (hab : dtLtB a b = true) (hbc : dtLtB b c = true) :
    dtLtB a c = true := by
  simp only [dtLtB, Bool.or_eq_true, Bool.and_eq_true, decide_eq_true_eq] at *
  omega

theorem dtLtB_asymm {a b : DateTime} (hab : dtLtB a b = true) : dtLtB b a = false := by
  simp only [dtLtB, Bool.or_eq_true, Bool.and_eq_true, decide_eq_true_eq] at *
  rcases a with ⟨ay, amo, ad, ah, ami⟩
  rcases b with ⟨by_, bmo, bd, bh, bmi⟩
  simp only [Bool.eq_false_iff, ne_eq, Bool.or_eq_true, Bool.and_eq_true, decide_eq_true_eq]
  simp only at hab
  omega

theorem dtLtB_irrefl (a : DateTime) : dtLtB a a = false := by
  simp [dtLtB]

theorem mkDatetime_eq_some {y m d hh mm : Nat} {dt : DateTime}
    (h : mkDatetime y m d hh mm = some dt) : dt = ⟨y, m, d, hh, mm⟩ := by
  unfold mkDatetime at h
  split at h
  · exact (Option.some_injective _ h).symm
  · exact absurd h (by simp)

theorem resolvedKeys_append (now : DateTime) (l₁ l₂ : List StoredEvent) :
    resolvedKeys now (l₁ ++ l₂) =
      Option.bind (resolvedKeys now l₁) fun a =>
        Option.map (fun b => a ++ b) (resolvedKeys now l₂) := by
  induction l₁ with
  | nil =>
    simp [resolvedKeys]
  | cons e es ih =>
    simp only [List.cons_append, resolvedKeys, ih]
    cases h₁ : str_to_datetime e.entry now <;>
      cases h₂ : resolvedKeys now es <;>
        cases h₃ : resolvedKeys now l₂ <;> simp [ih, h₂, h₃]

theorem resolvedKeys_reverse (now : DateTime) (l : List StoredEvent) :
    resolvedKeys now l.reverse = (resolvedKeys now l).map List.reverse := by
  induction l with
  | nil => rfl
  | cons e es ih =>
    simp only [List.reverse_cons, resolvedKeys_append, ih, resolvedKeys]
    cases str_to_datetime e.entry now <;> cases resolvedKeys now es <;> simp

/-- Core insertion lemma on the reversed list: if the reversed tail is
sorted latest-first and the new line reconstructs to the very datetime used
for placement, the scan succeeds and its output is sorted latest-first,
with keys drawn from the new key and the old ones. -/
theorem saveScan_sorted (now date : DateTime) (ev : StoredEvent)
    (hev : str_to_datetime ev.entry now = some date) :
    ∀ (l : List StoredEvent) (ks : List DateTime),
      resolvedKeys now l = some ks → ks.Pairwise dtGe →
      ∃ l₂ ks₂, saveScan now date ev l = some l₂ ∧
        resolvedKeys now l₂ = some ks₂ ∧ ks₂.Pairwise dtGe ∧
        ∀ k ∈ ks₂, k = date ∨ k ∈ ks := by
  intro l
  induction l with
  | nil =>
    intro ks hks _
    refine ⟨[ev], [date], rfl, ?_, ?_, ?_⟩
    · simp [resolvedKeys, hev]
    · simp
    · intro k hk
      simp only [List.mem_singleton] at hk
      exact Or.inl hk
  | cons e es ih =>
    intro ks hks hsorted
    simp only [resolvedKeys] at hks
    rcases hke : str_to_datetime e.entry now with _ | ke
    · rw [hke] at hks
      exact absurd hks (by simp)
    rcases hkes : resolvedKeys now es with _ | kes
    · rw [hke, hkes] at hks
      exact absurd hks (by simp)
    rw [hke, hkes] at hks
    simp at hks
    subst hks
    have hsorted_tail : kes.Pairwise dtGe := hsorted.tail
    have hke_ge : ∀ k ∈ kes, dtGe ke k := fun k hk => (List.pairwise_cons.mp hsorted).1 k hk
    by_cases hlt : dtLtB ke date = true
    · refine ⟨ev :: e :: es, date :: ke :: kes, ?_, ?_, ?_, ?_⟩
      · simp [saveScan, hke, hlt]
      · simp [resolvedKeys, hev, hke, hkes]
      · refine List.pairwise_cons.mpr ⟨?_, hsorted⟩
        intro k hk
        rcases List.mem_cons.mp hk with h | h
        · subst h
          exact dtLtB_asymm hlt
        · have hgk := hke_ge k h
          unfold dtGe at *
          by_contra hcon
          simp only [Bool.not_eq_false] at hcon
          exact absurd (dtLtB_trans hlt hcon) (by simp [hgk])
      · intro k hk
        rcases List.mem_cons.mp hk with h | h
        · exact Or.inl h
        · exact Or.inr h
    · rcases ih kes hkes hsorted_tail with ⟨l₂, ks₂, hscan, hres, hsort₂, hmem₂⟩
      refine ⟨e :: l₂, ke :: ks₂, ?_, ?_, ?_, ?_⟩
      · simp only [saveScan, hke]
        rw [if_neg (by simp [hlt]), hscan]
        rfl
      · simp [resolvedKeys, hke, hres]
      · refine List.pairwise_cons.mpr ⟨?_, hsort₂⟩
        intro k hk
        rcases hmem₂ k hk with h | h
        · subst h
          unfold dtGe
          simpa using hlt
        · exact hke_ge k h
      · intro k hk
        rcases List.mem_cons.mp hk with h | h
        · exact Or.inr (h ▸ List.mem_cons_self ke kes)
        · rcases hmem₂ k h with h₂ | h₂
          · exact Or.inl h₂
          · exact Or.inr (List.mem_cons_of_mem ke h₂)

theorem save_event_sorted (now date : DateTime) (ev : StoredEvent)
    (events : List StoredEvent)
    (hev : str_to_datetime ev.entry now = some date)
    (hsorted : sortedStored now events) :
    ∃ events₂, save_event now date ev (some events) = some events₂ ∧
      sortedStored now events₂ := by
  unfold sortedStored at hsorted
  rcases hks : resolvedKeys now events with _ | ks
  · rw [hks] at hsorted
    exact absurd hsorted (by simp)
  rw [hks] at hsorted
  have hrev : resolvedKeys now events.reverse = some ks.reverse := by
    rw [resolvedKeys_reverse, hks]
    rfl
  have hrevsorted : ks.reverse.Pairwise dtGe := by
    rw [List.pairwise_reverse]
    exact hsorted.imp (fun h => h)
  rcases saveScan_sorted now date ev hev events.reverse ks.reverse hrev hrevsorted with
    ⟨l₂, ks₂, hscan, hres, hsort₂, _⟩
  refine ⟨l₂.reverse, ?_, ?_⟩
  · simp [save_event, hscan]
  · unfold sortedStored
    rw [resolvedKeys_reverse, hres]
    show List.Pairwise dtLe ks₂.reverse
    rw [List.pairwise_reverse]
    exact hsort₂.imp (fun h => h)

theorem updateRole_map_id (students : List Student) (id r : Nat) :
    (updateRole students id r).map Student.id = students.map Student.id := by
  unfold updateRole
  rw [List.map_map]
  apply List.map_congr_left
  intro s _
  by_cases h : s.id = id <;> simp [h]

theorem roleOf_eq_some {students : List Student} {id r : Nat}
    (h : roleOf students id = some r) : ∃ s ∈ students, s.id = id ∧ s.role = r := by
  unfold roleOf at h
  rcases hf : students.find? (fun s => decide (s.id = id)) with _ | s
  · rw [hf] at h
    exact absurd h (by simp)
  · rw [hf] at h
    simp only [Option.map_some', Option.some.injEq] at h
    refine ⟨s, List.mem_of_find?_eq_some hf, ?_, h⟩
    have hp := List.find?_some hf
    simpa using hp

theorem mem_updateRole {students : List Student} {id r : Nat} {s' : Student}
    (h : s' ∈ updateRole students id r) :
    ∃ s ∈ students, s' = if s.id = id then ⟨s.id, r⟩ else s := by
  unfold updateRole at h
  rcases List.mem_map.mp h with ⟨s, hs, he⟩
  exact ⟨s, hs, he.symm⟩

theorem atMostOneLeader_promote {students : List Student} {candidate : Nat}
    (hnone : ∀ s ∈ students, s.role ≠ leaderRole) :
    atMostOneLeader (updateRole students candidate leaderRole) := by
  intro s hs t ht hsr htr
  rcases mem_updateRole hs with ⟨a, ha, hae⟩
  rcases mem_updateRole ht with ⟨b, hb, hbe⟩
  by_cases h₁ : a.id = candidate
  · by_cases h₂ : b.id = candidate
    · rw [hae, hbe]
      simp [h₁, h₂]
    · rw [hbe] at htr
      simp only [h₂, if_false] at htr
      exact absurd htr (hnone b hb)
  · rw [hae] at hsr
    simp only [h₁, if_false] at hsr
    exact absurd hsr (hnone a ha)

theorem atMostOneLeader_demote {students : List Student} {id r : Nat}
    (hr : r ≠ leaderRole) (h : atMostOneLeader students) :
    atMostOneLeader (updateRole students id r) := by
  intro s hs t ht hsr htr
  rcases mem_updateRole hs with ⟨a, ha, hae⟩
  rcases mem_updateRole ht with ⟨b, hb, hbe⟩
  by_cases h₁ : a.id = id
  · rw [hae] at hsr
    simp only [h₁, if_true] at hsr
    exact absurd hsr hr
  · by_cases h₂ : b.id = id
    · rw [hbe] at htr
      simp only [h₂, if_true] at htr
      exact absurd htr hr
    · rw [hae] at hsr ⊢
      rw [hbe] at htr ⊢
      simp only [h₁, h₂, if_false] at hsr htr ⊢
      exact h a ha b hb hsr htr

theorem atMostOneLeader_resign {students : List Student} {invoker successor : Nat}
    (h : atMostOneLeader students)
    (hinv : ∃ s ∈ students, s.id = invoker ∧ s.role = leaderRole) :
    atMostOneLeader (updateRole (updateRole students successor leaderRole) invoker adminRole) := by
  rcases hinv with ⟨w, hw, hwid, hwrole⟩
  intro s hs t ht hsr htr
  rcases mem_updateRole hs with ⟨a', ha', hae'⟩
  rcases mem_updateRole ha' with ⟨a, ha, hae⟩
  rcases mem_updateRole ht with ⟨b', hb', hbe'⟩
  rcases mem_updateRole hb' with ⟨b, hb, hbe⟩
  have hform : ∀ (c : Student), c ∈ students →
      ∀ (c' c'' : Student), c' = (if c.id = successor then (⟨c.id, leaderRole⟩ : Student) else c) →
      c'' = (if c'.id = invoker then (⟨c'.id, adminRole⟩ : Student) else c') →
      c''.role = leaderRole → c'' = ⟨successor, leaderRole⟩ := by
    intro c hc c' c'' h₁ h₂ hrole
    by_cases hci : c.id = successor
    · rw [h₁] at h₂
      simp only [hci, if_true] at h₂
      by_cases hinv₂ : successor = invoker
      · rw [h₂] at hrole
        simp only [hinv₂, if_true] at hrole
        exact absurd hrole (by simp [adminRole, leaderRole])
      · rw [h₂]
        simp [hinv₂]
    · rw [h₁] at h₂
      simp only [hci, if_false] at h₂
      by_cases hcinv : c.id = invoker
      · rw [h₂] at hrole
        simp only [hcinv, if_true] at hrole
        exact absurd hrole (by simp [adminRole, leaderRole])
      · rw [h₂] at hrole
        simp only [hcinv, if_false] at hrole
        have := h c hc w hw hrole hwrole
        rw [this] at hcinv
        exact absurd hwid hcinv
  have hs₂ := hform a ha a' s hae hae' hsr
  have ht₂ := hform b hb b' t hbe hbe' htr
  rw [hs₂, ht₂]

theorem groupStep_inv (quorum maxRatio : Nat) (st : GroupState) (cmd : GroupCmd)
    (h : groupInv st) : groupInv (groupStep quorum maxRatio st cmd) := by
  obtain ⟨students, pending⟩ := st
  obtain ⟨hnd, hone, hpend⟩ := h
  simp only [groupInv] at hnd hone hpend ⊢
  cases cmd with
  | claim u =>
    by_cases hguard : (∃ r, roleOf students u = some r ∧ r ≠ leaderRole) ∧
        (∀ s ∈ students, s.role ≠ leaderRole) ∧ quorum ≤ students.length - 1
    · have hstep : groupStep quorum maxRatio ⟨students, pending⟩ (.claim u) =
          ⟨students, some (u, lcInitial)⟩ := by
        simp only [groupStep, if_pos hguard]
      rw [hstep]
      exact ⟨hnd, hone, fun _ => hguard.2.1⟩
    · have hstep : groupStep quorum maxRatio ⟨students, pending⟩ (.claim u) =
          ⟨students, pending⟩ := by
        simp only [groupStep, if_neg hguard]
      rw [hstep]
      exact ⟨hnd, hone, hpend⟩
  | vote ans =>
    cases pending with
    | none => exact ⟨hnd, hone, hpend⟩
    | some cl =>
      obtain ⟨candidate, lcs⟩ := cl
      have hnoleader : ∀ s ∈ students, s.role ≠ leaderRole :=
        hpend (by simp)
      cases hopen : (handle_answer quorum candidate lcs (some ans)).pollOpen with
      | true =>
        have hstep : groupStep quorum maxRatio ⟨students, some (candidate, lcs)⟩ (.vote ans) =
            ⟨students, some (candidate, handle_answer quorum candidate lcs (some ans))⟩ := by
          simp only [groupStep, hopen, if_true]
        rw [hstep]
        exact ⟨hnd, hone, fun _ => hnoleader⟩
      | false =>
        by_cases ho : (handle_answer quorum candidate lcs (some ans)).outcome = some true
        · have hstep : groupStep quorum maxRatio ⟨students, some (candidate, lcs)⟩ (.vote ans) =
              ⟨updateRole students candidate leaderRole, none⟩ := by
            simp only [groupStep, hopen, Bool.false_eq_true, if_false, ho, if_true]
          rw [hstep]
          refine ⟨?_, ?_, ?_⟩
          · show (List.map Student.id (updateRole students candidate leaderRole)).Nodup
            rw [updateRole_map_id]
            exact hnd
          · exact atMostOneLeader_promote hnoleader
          · intro hcon
            exact absurd rfl hcon
        · have hstep : groupStep quorum maxRatio ⟨students, some (candidate, lcs)⟩ (.vote ans) =
              ⟨students, none⟩ := by
            simp only [groupStep, hopen, Bool.false_eq_true, if_false, ho]
          rw [hstep]
          exact ⟨hnd, hone, fun hcon => absurd rfl hcon⟩
  | trust invoker target =>
    by_cases hguard : roleOf students invoker = some leaderRole ∧
        (students.filter (fun s => decide (s.role = adminRole))).length + 1 ≤
          maxRatio * students.length ∧
        roleOf students target = some ordinaryRole
    · have hstep : groupStep quorum maxRatio ⟨students, pending⟩ (.trust invoker target) =
          ⟨updateRole students target adminRole, pending⟩ := by
        simp only [groupStep, if_pos hguard]
      rw [hstep]
      have hleader := roleOf_eq_some hguard.1
      have hpnone : pending = none := by
        by_contra hcon
        rcases hleader with ⟨s, hs, _, hrole⟩
        exact absurd hrole (hpend hcon s hs)
      refine ⟨?_, ?_, ?_⟩
      · show (List.map Student.id (updateRole students target adminRole)).Nodup
        rw [updateRole_map_id]
        exact hnd
      · exact atMostOneLeader_demote (by simp [adminRole, leaderRole]) hone
      · intro hcon
        exact absurd hpnone hcon
    · have hstep : groupStep quorum maxRatio ⟨students, pending⟩ (.trust invoker target) =
          ⟨students, pending⟩ := by
        simp only [groupStep, if_neg hguard]
      rw [hstep]
      exact ⟨hnd, hone, hpend⟩
  | distrust invoker target =>
    by_cases hguard : roleOf students invoker = some leaderRole ∧
        roleOf students target = some adminRole
    · have hstep : groupStep quorum maxRatio ⟨students, pending⟩ (.distrust invoker target) =
          ⟨updateRole students target ordinaryRole, pending⟩ := by
        simp only [groupStep, if_pos hguard]
      rw [hstep]
      have hleader := roleOf_eq_some hguard.1
      have hpnone : pending = none := by
        by_contra hcon
        rcases hleader with ⟨s, hs, _, hrole⟩
        exact absurd hrole (hpend hcon s hs)
      refine ⟨?_, ?_, ?_⟩
      · show (List.map Student.id (updateRole students target ordinaryRole)).Nodup
        rw [updateRole_map_id]
        exact hnd
      · exact atMostOneLeader_demote (by simp [ordinaryRole, leaderRole]) hone
      · intro hcon
        exact absurd hpnone hcon
    · have hstep : groupStep quorum maxRatio ⟨students, pending⟩ (.distrust invoker target) =
          ⟨students, pending⟩ := by
        simp only [groupStep, if_neg hguard]
      rw [hstep]
      exact ⟨hnd, hone, hpend⟩
  | resign invoker successor =>
    by_cases hguard : roleOf students invoker = some leaderRole ∧
        (if (students.filter (fun s => decide (s.role = adminRole))).length ≠ 0 then
          roleOf students successor = some adminRole
        else
          roleOf students successor = some ordinaryRole)
    · have hstep : groupStep quorum maxRatio ⟨students, pending⟩ (.resign invoker successor) =
          ⟨updateRole (updateRole students successor leaderRole) invoker adminRole,
            pending⟩ := by
        simp only [groupStep, if_pos hguard]
      rw [hstep]
      have hleader := roleOf_eq_some hguard.1
      have hpnone : pending = none := by
        by_contra hcon
        rcases hleader with ⟨s, hs, _, hrole⟩
        exact absurd hrole (hpend hcon s hs)
      refine ⟨?_, ?_, ?_⟩
      · show (List.map Student.id
          (updateRole (updateRole students successor leaderRole) invoker adminRole)).Nodup
        rw [updateRole_map_id, updateRole_map_id]
        exact hnd
      · exact atMostOneLeader_resign hone hleader
      · intro hcon
        exact absurd hpnone hcon
    · have hstep : groupStep quorum maxRatio ⟨students, pending⟩ (.resign invoker successor) =
          ⟨students, pending⟩ := by
        simp only [groupStep, if_neg hguard]
      rw [hstep]
      exact ⟨hnd, hone, hpend⟩

theorem groupRun_inv (quorum maxRatio : Nat) (st : GroupState) (cmds : List GroupCmd)
    (h : groupInv st) : groupInv (groupRun quorum maxRatio st cmds) := by
  induction cmds generalizing st with
  | nil => exact h
  | cons c cs ih => exact ih _ (groupStep_inv quorum maxRatio st c h)

/-- Claim C1, counterexample. The unconditional ordering claim fails: on
2023-12-01 the stored list holds the single line `5 10.06` (resolving to
2023-06-10). Entering `15.04` resolves to 2024-04-15 (weekday 0, Monday)
and `save_event` appends it at the end, but the stored serialization
`0 15.04` re-parses at that same moment to 2022-04-15, so the stored list
is no longer in ascending order of its own resolution. -/
theorem C1_counterexample :
    inspect_date [⟨15, 4, none⟩] ⟨2023, 12, 1, 0, 0⟩ =
      .ok ⟨2024, 4, 15, 23, 59⟩ 0 ⟨0, 15, 4, none⟩ ∧
    sortedStored ⟨2023, 12, 1, 0, 0⟩ [⟨⟨5, 10, 6, none⟩, "session"⟩] ∧
    save_event ⟨2023, 12, 1, 0, 0⟩ ⟨2024, 4, 15, 23, 59⟩ ⟨⟨0, 15, 4, none⟩, "deadline"⟩
        (some [⟨⟨5, 10, 6, none⟩, "session"⟩]) =
      some [⟨⟨5, 10, 6, none⟩, "session"⟩, ⟨⟨0, 15, 4, none⟩, "deadline"⟩] ∧
    ¬ sortedStored ⟨2023, 12, 1, 0, 0⟩
        [⟨⟨5, 10, 6, none⟩, "session"⟩, ⟨⟨0, 15, 4, none⟩, "deadline"⟩] := by
  refine ⟨by decide, by decide, by decide, by decide⟩

/-- Claim C1 (amended): insertion by `AddingEvent.save_event` keeps the
stored list sorted in ascending order of its `str_to_datetime` resolution
at the moment of insertion, with the 23:59 encoding giving the
timed-before-all-day tie-break, provided the new line's serialization
re-parses at that moment to the very datetime used for placement (the
weekday-based year re-resolution can violate this proviso, breaking the
unconditional invariant). -/
theorem C1_save_event_sorted (now date : DateTime) (ev : StoredEvent)
    (events : List StoredEvent)
    (hev : str_to_datetime ev.entry now = some date)
    (hsorted : sortedStored now events) :
    ∃ events₂, save_event now date ev (some events) = some events₂ ∧
      sortedStored now events₂ :=
  save_event_sorted now date ev events hev hsorted

theorem C1_save_event_sorted_witness :
    str_to_datetime ⟨0, 20, 5, none⟩ ⟨2024, 1, 10, 0, 0⟩ = some ⟨2024, 5, 20, 23, 59⟩ ∧
    sortedStored ⟨2024, 1, 10, 0, 0⟩ [⟨⟨4, 15, 3, none⟩, "exam"⟩] ∧
    ∃ events₂,
      save_event ⟨2024, 1, 10, 0, 0⟩ ⟨2024, 5, 20, 23, 59⟩ ⟨⟨0, 20, 5, none⟩, "trip"⟩
          (some [⟨⟨4, 15, 3, none⟩, "exam"⟩]) = some events₂ ∧
      sortedStored ⟨2024, 1, 10, 0, 0⟩ events₂ :=
  ⟨by decide, by decide,
    C1_save_event_sorted ⟨2024, 1, 10, 0, 0⟩ ⟨2024, 5, 20, 23, 59⟩
      ⟨⟨0, 20, 5, none⟩, "trip"⟩ [⟨⟨4, 15, 3, none⟩, "exam"⟩] (by decide) (by decide)⟩

/-- Claim C7: the code crashes on the February boundary the claim says it
handles correctly. On 2023-03-01 the entered date `29.02` passes the
day-length check (the next February, 2024, has 29 days) but the code then
constructs `datetime(2023, 2, 29)`, raising an uncaught `ValueError`
instead of resolving to 2024-02-29 or reporting a validation message. -/
theorem C7_february_boundary_crash :
    inspect_date [⟨29, 2, none⟩] ⟨2023, 3, 1, 0, 0⟩ = .valueError ∧
    (isLeapYear 2024 = true ∧ monthLength 2023 2 = 28) := by
  refine ⟨by decide, by decide, by decide⟩

/-- Claim C6: deleting an info block (or cancelling an event) that a
concurrent actor already removed from the freshly re-read persisted value
does not raise — the not-found removal is a no-op — and leaves the
remaining blocks, their order and their content unchanged. -/
theorem C6_idempotent_redeletion (blocks events : List String) (piece ev : String)
    (hpiece : piece ∉ blocks) (hev : ev ∉ events) :
    delete_info (some blocks) piece =
      (if String.intercalate "\n\n" blocks = "" then none else some blocks) ∧
    delete_event (some events) ev =
      (if String.intercalate "\n" events = "" then none else some events) ∧
    delete_info none piece = none ∧
    delete_event none ev = none := by
  refine ⟨?_, ?_, rfl, rfl⟩
  · simp only [delete_info, List.erase_of_not_mem hpiece]
  · simp only [delete_event, List.erase_of_not_mem hev]

theorem C6_idempotent_redeletion_witness :
    "laptops in room 5" ∉ ["keys at the dean office"] ∧
    "0 15.04 — deadline" ∉ ["5 10.06 — session"] ∧
    delete_info (some ["keys at the dean office"]) "laptops in room 5" =
      some ["keys at the dean office"] ∧
    delete_event (some ["5 10.06 — session"]) "0 15.04 — deadline" =
      some ["5 10.06 — session"] := by
  have h := C6_idempotent_redeletion ["keys at the dean office"] ["5 10.06 — session"]
    "laptops in room 5" "0 15.04 — deadline" (by decide) (by decide)
  exact ⟨by decide, by decide, by rw [h.1]; decide, by rw [h.2.1]; decide⟩

theorem getD_set_preserve {l : List Char} {j i : Nat} (h : l.getD i ' ' = '1') :
    ((l.set j '1').getD i ' ') = '1' := by
  rw [List.getD_eq_getElem?_getD] at h ⊢
  rw [List.getElem?_set]
  by_cases hij : j = i
  · subst hij
    by_cases hlen : j < l.length
    · simp [hlen]
    · have hnone : l[j]? = none := List.getElem?_eq_none (le_of_not_lt hlen)
      rw [hnone] at h
      exact absurd h (by decide)
  · simpa [hij] using h

/-- Claim C9: a familiarity update sets the named field to 1, leaves every
other position and the width unchanged, and consequently the bits are
append-only — once a position holds 1, no sequence of further
`update_familiarity` calls (each of which writes 1, as every call site in
the source does) ever writes it back to 0. -/
theorem C9_familiarity_append_only (familiarity : List Char) (field i : Nat)
    (fields : List Nat) (hfield : field < familiarity.length) :
    (update_familiarity familiarity field).getD field ' ' = '1' ∧
    (∀ j, j ≠ field →
      (update_familiarity familiarity field).getD j ' ' = familiarity.getD j ' ') ∧
    (update_familiarity familiarity field).length = familiarity.length ∧
    (familiarity.getD i ' ' = '1' →
      (familiarityRun familiarity fields).getD i ' ' = '1') := by
  refine ⟨?_, ?_, ?_, ?_⟩
  · unfold update_familiarity
    rw [List.getD_eq_getElem?_getD, List.getElem?_set]
    simp [hfield]
  · intro j hj
    unfold update_familiarity
    rw [List.getD_eq_getElem?_getD, List.getD_eq_getElem?_getD, List.getElem?_set]
    have hne : ¬ (field = j) := fun h => hj h.symm
    simp [hne]
  · exact List.length_set familiarity field '1'
  · clear hfield
    induction fields generalizing familiarity with
    | nil => exact fun hset => hset
    | cons f fs ih =>
      intro hset
      have hstep : familiarityRun familiarity (f :: fs) =
          familiarityRun (update_familiarity familiarity f) fs := rfl
      rw [hstep]
      exact ih (update_familiarity familiarity f) (getD_set_preserve hset)

theorem C9_familiarity_append_only_witness :
    (1 : Nat) < (['0', '1', '0'] : List Char).length ∧
    (update_familiarity ['0', '1', '0'] 1).getD 1 ' ' = '1' ∧
    (familiarityRun ['0', '1', '0'] [0, 2, 0]).getD 1 ' ' = '1' := by
  have h := C9_familiarity_append_only ['0', '1', '0'] 1 1 [0, 2, 0] (by decide)
  exact ⟨by decide, h.1, h.2.2.2 (by decide)⟩

/-- Claim C2: a poll answer by the candidate is never tallied and adds a
cheating notice instead; for any other voter the tally grows by one and
the outcome is decided exactly when the tally reaches the quorum (never at
fewer votes); the decision is strict majority, positive/quorum above one
half, so ties round down to rejection — concretely with quorum 3 the vote
sequences yes-yes-no and yes-no-no give confirmation and rejection. -/
theorem C2_quorum_protocol (quorum candidate : Nat) (st : LCState) (ans : PollAnswer) :
    (ans.userId = candidate →
      handle_answer quorum candidate st (some ans) =
        ⟨st.numVotes, st.numPositiveVotes, st.pollOpen, st.outcome,
          st.cheatingNotices + 1⟩) ∧
    (ans.userId ≠ candidate →
      (handle_answer quorum candidate st (some ans)).numVotes = st.numVotes + 1 ∧
      (handle_answer quorum candidate st (some ans)).outcome =
        (if st.numVotes + 1 = quorum then
          some (handle_result quorum
            (if ans.optionId = 0 then st.numPositiveVotes + 1 else st.numPositiveVotes))
        else st.outcome)) ∧
    (∀ positives, handle_result quorum positives = true ↔ quorum < 2 * positives) ∧
    (lcRun 3 0 lcInitial [some ⟨1, 0⟩, some ⟨2, 0⟩, some ⟨3, 1⟩]).outcome = some true ∧
    (lcRun 3 0 lcInitial [some ⟨1, 0⟩, some ⟨2, 1⟩, some ⟨3, 1⟩]).outcome = some false ∧
    handle_answer quorum candidate st none = st := by
  refine ⟨?_, ?_, ?_, by decide, by decide, rfl⟩
  · intro h
    simp [handle_answer, h]
  · intro h
    simp only [handle_answer, if_pos h]
    by_cases hq : st.numVotes + 1 = quorum <;> simp [hq]
  · intro positives
    simp [handle_result]

theorem C2_quorum_protocol_witness :
    handle_answer 3 0 lcInitial (some ⟨0, 0⟩) = ⟨0, 0, true, none, 1⟩ ∧
    (handle_answer 3 0 lcInitial (some ⟨1, 0⟩)).numVotes = 1 := by
  refine ⟨?_, ?_⟩
  · have h := (C2_quorum_protocol 3 0 lcInitial ⟨0, 0⟩).1 rfl
    simpa [lcInitial] using h
  · exact ((C2_quorum_protocol 3 0 lcInitial ⟨1, 0⟩).2.1 (by decide)).1

theorem getLastD_id_max {l : List (Nat × String)} {r : Nat × String}
    (hs : ((r :: l).map Prod.fst).Sorted (· ≤ ·)) :
    ∀ p ∈ r :: l, p.1 ≤ (l.getLastD r).1 := by
  induction l generalizing r with
  | nil =>
    intro p hp
    rcases List.mem_singleton.mp hp with h
    subst h
    exact le_refl _
  | cons r₂ l₂ ih =>
    intro p hp
    simp only [List.map_cons] at hs
    have hhead : r.1 ≤ r₂.1 :=
      (List.sorted_cons.mp hs).1 r₂.1 (by simp)
    have hs₂ : ((r₂ :: l₂).map Prod.fst).Sorted (· ≤ ·) := by
      simpa using (List.sorted_cons.mp hs).2
    have hlast : (l₂.getLastD r₂).1 = ((r₂ :: l₂).getLastD r).1 := by
      rw [List.getLastD_cons]
    rcases List.mem_cons.mp hp with h | h
    · calc p.1 = r.1 := by rw [h]
        _ ≤ r₂.1 := hhead
        _ ≤ (l₂.getLastD r₂).1 := ih hs₂ r₂ (by simp)
        _ = ((r₂ :: l₂).getLastD r).1 := hlast
    · calc p.1 ≤ (l₂.getLastD r₂).1 := ih hs₂ p h
        _ = ((r₂ :: l₂).getLastD r).1 := hlast

/-- Claim C3, counterexample. The id of the first group of institution 7,
department ordinal 0 is 700000 produced by the code — the digit layout is
`edu * 100000 + department * 1000 + ordinal` — not the 7000 the claimed
formula `institution * 1000 + department * 100 + ordinal` yields, and the
second distinct name gets 700001, not 7001. -/
theorem C3_counterexample :
    determine_group_id (departmentPrefix 7 0) "FI-11" [] = (700000, true) ∧
    (700000 : Nat) ≠ 7 * 1000 + 0 * 100 + 0 ∧
    determine_group_id (departmentPrefix 7 0) "FI-12" [(700000, "FI-11")] =
      (700001, true) ∧
    (700001 : Nat) ≠ 7001 := by
  refine ⟨by decide, by decide, by decide, by decide⟩

/-- Claim C3 (amended): a new group id is
`institution_id * 100000 + department_ordinal * 1000 + ordinal` — a
department with no groups yields ordinal 0, and when no stored name
matches the case-normalized input the ordinal continues from the last
listed (hence, under the primary-key ascending listing, the maximal)
existing id, which every existing id is strictly below. -/
theorem C3_group_id_allocation (eduId departmentId : Nat) (groupName : String)
    (records : List (Nat × String)) (r : Nat × String)
    (hnomatch : ∀ p ∈ r :: records, p.2 ≠ groupName)
    (hsorted : ((r :: records).map Prod.fst).Sorted (· ≤ ·)) :
    determine_group_id (departmentPrefix eduId departmentId) groupName [] =
      (eduId * 100000 + departmentId * 1000, true) ∧
    determine_group_id (departmentPrefix eduId departmentId) groupName (r :: records) =
      ((records.getLastD r).1 + 1, true) ∧
    (∀ p ∈ r :: records, p.1 <
      (determine_group_id (departmentPrefix eduId departmentId) groupName
        (r :: records)).1) := by
  have hfind : (r :: records).find? (fun p => p.2 = groupName) = none := by
    rw [List.find?_eq_none]
    intro p hp
    simpa using hnomatch p hp
  refine ⟨?_, ?_, ?_⟩
  · simp only [determine_group_id, departmentPrefix]
    refine Prod.ext ?_ rfl
    show (eduId * 100 + departmentId) * 1000 = eduId * 100000 + departmentId * 1000
    ring
  · simp [determine_group_id, hfind]
  · intro p hp
    have hle := getLastD_id_max hsorted p hp
    have heq : (determine_group_id (departmentPrefix eduId departmentId) groupName
        (r :: records)).1 = (records.getLastD r).1 + 1 := by
      simp [determine_group_id, hfind]
    omega

theorem C3_group_id_allocation_witness :
    determine_group_id (departmentPrefix 7 0) "FI-12" [] = (700000, true) ∧
    determine_group_id (departmentPrefix 7 0) "FI-12" [(700000, "FI-11")] =
      (700001, true) := by
  have h := C3_group_id_allocation 7 0 "FI-12" [] (700000, "FI-11")
    (by decide) (by simp)
  refine ⟨?_, ?_⟩
  · have h₁ := h.1
    simpa using h₁
  · have h₂ := h.2.1
    simpa using h₂

/-- Claim C10, counterexample. A button click with a payload that the step
does not expect is not a silent no-op everywhere: in
`AskingGroup.handle_response` a pending respondent clicking a stale button
with payload y is processed as a refusal — the respondent is moved from
the pending to the refused section and messages are edited. -/
theorem C10_counterexample :
    (handle_response 1 100 (ag_launch 1 100 false [2, 3]) 2 (.query "y")).2 =
      .refusalTaken ∧
    (handle_response 1 100 (ag_launch 1 100 false [2, 3]) 2 (.query "y")).1.asked =
      [3] ∧
    (handle_response 1 100 (ag_launch 1 100 false [2, 3]) 2 (.query "y")).1.refused =
      [2] := by
  refine ⟨by decide, by decide, by decide⟩

/-- Claim C10 (amended): a step that receives an update of the wrong kind
(no callback query where one is expected) is a silent no-op, as in
`Registration.ask_city`; but a callback with an unexpected payload is not
universally ignored — `AskingGroup.handle_response` processes any
non-terminate click from a pending respondent as a refusal and any text as
an answer. -/
theorem C10_mismatched_update_handling :
    (∀ s, ask_city (.text s) = .noop) ∧
    ask_city .other = .noop ∧
    (∀ leader groupId st chat d, d ≠ "terminate" → chat ∈ st.asked →
      (handle_response leader groupId st chat (.query d)).2 = .refusalTaken) ∧
    (∀ leader groupId st chat s, chat ∈ st.asked →
      (handle_response leader groupId st chat (.message s)).2 = .answerTaken) := by
  refine ⟨fun s => rfl, rfl, ?_, ?_⟩
  · intro leader groupId st chat d hd hchat
    simp [handle_response, hd, hchat]
  · intro leader groupId st chat s hchat
    simp [handle_response, hchat]

theorem C10_mismatched_update_handling_witness :
    ask_city .other = .noop ∧
    (handle_response 1 100 (ag_launch 1 100 true [2]) 2 (.query "n")).2 =
      .refusalTaken ∧
    (handle_response 1 100 (ag_launch 1 100 true [2]) 2 (.message "ready")).2 =
      .answerTaken :=
  ⟨C10_mismatched_update_handling.2.1,
    C10_mismatched_update_handling.2.2.1 1 100 (ag_launch 1 100 true [2]) 2 "n"
      (by decide) (by decide),
    C10_mismatched_update_handling.2.2.2 1 100 (ag_launch 1 100 true [2]) 2 "ready"
      (by decide)⟩

theorem resolve_date_roundtrip (now : DateTime) (day month hour minute : Nat) (tg : Bool)
    (d : DateTime) (w : Nat) (e : EventEntry)
    (h : resolve_date now day month hour minute tg = .ok d w e)
    (htg : tg = false → hour = 23 ∧ minute = 59)
    (hyear : d.year = now.year) :
    str_to_datetime e now = some d ∧ weekdayIndex d.year d.month d.day = w := by
  unfold resolve_date at h
  split at h
  · exact absurd h (by simp)
  · rename_i dty hmk
    have hdty := mkDatetime_eq_some hmk
    split at h
    · simp only [InspectResult.ok.injEq] at h
      obtain ⟨hd, hw, he⟩ := h
      subst hd
      subst hw
      subst he
      constructor
      · cases tg with
        | false =>
          obtain ⟨hh23, hm59⟩ := htg rfl
          subst hh23
          subst hm59
          simp only [Bool.false_eq_true, if_neg, ite_false]
          simp only [str_to_datetime]
          rw [hmk]
          dsimp only
          have hc₁ : ¬ (weekdayIndex now.year month day > weekdayIndex now.year month day ∨
              (weekdayIndex now.year month day = 0 ∧ weekdayIndex now.year month day = 6)) := by
            omega
          have hc₂ : ¬ (weekdayIndex now.year month day < weekdayIndex now.year month day ∨
              (weekdayIndex now.year month day = 6 ∧ weekdayIndex now.year month day = 0)) := by
            omega
          rw [if_neg hc₁, if_neg hc₂]
        | true =>
          simp only [ite_true]
          simp only [str_to_datetime]
          rw [hmk]
          dsimp only
          have hc₁ : ¬ (weekdayIndex now.year month day > weekdayIndex now.year month day ∨
              (weekdayIndex now.year month day = 0 ∧ weekdayIndex now.year month day = 6)) := by
            omega
          have hc₂ : ¬ (weekdayIndex now.year month day < weekdayIndex now.year month day ∨
              (weekdayIndex now.year month day = 6 ∧ weekdayIndex now.year month day = 0)) := by
            omega
          rw [if_neg hc₁, if_neg hc₂]
      · rw [hdty]
    · split at h
      · exact absurd h (by simp)
      · rename_i dny hmk₂
        simp only [InspectResult.ok.injEq] at h
        obtain ⟨hd, _, _⟩ := h
        have hdny := mkDatetime_eq_some hmk₂
        rw [← hd, hdny] at hyear
        exact absurd hyear (by simp)

/-- Claim C4, counterexample. At 2023-12-01 the input `15.04` resolves to
2024-04-15 with weekday index 0 (Monday) and is serialized as `0 15.04`,
but re-parsing that serialization with `str_to_datetime` at the same
moment yields 2022-04-15 — a different calendar date whose weekday index
is 4, not 0 — because the weekday comparison (0 against this year's 5)
sends the date to the previous year. -/
theorem C4_counterexample :
    inspect_date [⟨15, 4, none⟩] ⟨2023, 12, 1, 0, 0⟩ =
      .ok ⟨2024, 4, 15, 23, 59⟩ 0 ⟨0, 15, 4, none⟩ ∧
    str_to_datetime ⟨0, 15, 4, none⟩ ⟨2023, 12, 1, 0, 0⟩ =
      some ⟨2022, 4, 15, 23, 59⟩ ∧
    (⟨2022, 4, 15, 23, 59⟩ : DateTime) ≠ ⟨2024, 4, 15, 23, 59⟩ ∧
    weekdayIndex 2022 4 15 ≠ 0 := by
  refine ⟨by decide, by decide, by decide, by decide⟩

/-- Claim C4 (amended): whenever the accepted date resolves into the
current year (it has not yet passed this year), serializing and re-parsing
through `str_to_datetime` returns the same calendar datetime, and the
stored weekday index is the weekday of the resolved date; the concrete
instance `15.03` at 2024-01-10 resolves to 2024-03-15, weekday 4,
serialized `4 15.03`. Resolutions into the next year can re-parse to a
different year, so the unrestricted round-trip fails. -/
theorem C4_date_roundtrip (dates : List DateMatch) (now d : DateTime) (w : Nat)
    (e : EventEntry)
    (h : inspect_date dates now = .ok d w e) (hyear : d.year = now.year) :
    str_to_datetime e now = some d ∧ weekdayIndex d.year d.month d.day = w := by
  unfold inspect_date at h
  split at h
  · exact absurd h (by simp)
  · exact absurd h (by simp)
  · rename_i m
    dsimp only at h
    repeat' split at h
    all_goals first
      | exact resolve_date_roundtrip now m.day m.month _ _ true d w e h
          (fun hc => absurd hc (by simp)) hyear
      | exact resolve_date_roundtrip now m.day m.month 23 59 false d w e h
          (fun _ => ⟨rfl, rfl⟩) hyear
      | exact absurd h (by simp)

theorem C4_date_roundtrip_witness :
    inspect_date [⟨15, 3, none⟩] ⟨2024, 1, 10, 0, 0⟩ =
      .ok ⟨2024, 3, 15, 23, 59⟩ 4 ⟨4, 15, 3, none⟩ ∧
    str_to_datetime ⟨4, 15, 3, none⟩ ⟨2024, 1, 10, 0, 0⟩ =
      some ⟨2024, 3, 15, 23, 59⟩ ∧
    weekdayIndex 2024 3 15 = 4 := by
  have h := C4_date_roundtrip [⟨15, 3, none⟩] ⟨2024, 1, 10, 0, 0⟩
    ⟨2024, 3, 15, 23, 59⟩ 4 ⟨4, 15, 3, none⟩ (by decide) rfl
  exact ⟨by decide, h.1, h.2⟩

theorem ag_launch_inv (leader groupId : Nat) (isPublic : Bool) (groupmates : List Nat)
    (hnd : groupmates.Nodup) (hl : leader ∉ groupmates) (hg : groupId ∉ groupmates)
    (hgl : groupId ≠ leader) (hne : groupmates ≠ []) :
    agInv groupId (ag_launch leader groupId isPublic groupmates) := by
  cases isPublic with
  | false =>
    refine ⟨by simpa [ag_launch] using hnd, ?_, by simpa [ag_launch] using hg,
      Or.inr ⟨by simpa [ag_launch] using hne, ?_⟩⟩
    · show (([] : List Nat) ++ groupmates ++ [groupId]).Nodup
      simp [List.nodup_append, hnd, List.Disjoint]
      intro a ha hcon
      exact hg (hcon ▸ ha)
    · intro x
      show x ∈ ([] : List Nat) ++ groupmates ++ [groupId] ↔
        (x ∈ groupmates ++ (if false then [leader] else []) ∨ x = groupId)
      simp
  | true =>
    refine ⟨?_, ?_, ?_, Or.inr ⟨by simp [ag_launch], ?_⟩⟩
    · show (groupmates ++ [leader]).Nodup
      simp [List.nodup_append, hnd, List.Disjoint]
      intro a ha hcon
      exact hl (hcon ▸ ha)
    · show (([leader] : List Nat) ++ groupmates ++ [groupId]).Nodup
      simp [List.nodup_append, hnd, List.Disjoint]
      refine ⟨⟨hl, fun h => hgl h.symm⟩, ?_⟩
      intro a ha hcon
      exact hg (hcon ▸ ha)
    · show groupId ∉ groupmates ++ [leader]
      simp [hg, hgl]
    · intro x
      show x ∈ ([leader] : List Nat) ++ groupmates ++ [groupId] ↔
        (x ∈ groupmates ++ [leader] ∨ x = groupId)
      simp
      tauto

theorem ag_respond_inv (groupId : Nat) (st : AGState) (chat : Nat) (b : Bool)
    (hJ : agInv groupId st) (hchat : chat ∈ st.asked) :
    agInv groupId (ag_respond groupId st chat b) := by
  obtain ⟨hand, hrnd, hgna, hrel⟩ := hJ
  rcases hrel with ⟨hempty, _⟩ | ⟨_, hiff⟩
  · rw [hempty] at hchat
    exact absurd hchat (by simp)
  have hcg : chat ≠ groupId := fun h => hgna (h ▸ hchat)
  by_cases he : st.asked.erase chat = []
  · have hie : (st.asked.erase chat).isEmpty = true := by simp [he]
    have hasked_single : ∀ x ∈ st.asked, x = chat := by
      intro x hx
      by_contra hxc
      have hmem : x ∈ st.asked.erase chat := (List.Nodup.mem_erase_iff hand).mpr ⟨hxc, hx⟩
      rw [he] at hmem
      exact absurd hmem (by simp)
    refine ⟨?_, ?_, ?_, Or.inl ⟨?_, ?_⟩⟩
    · show (st.asked.erase chat).Nodup
      exact hand.erase chat
    · show ((if (st.asked.erase chat).isEmpty then st.reg.erase groupId else st.reg).erase
        chat).Nodup
      rw [if_pos hie]
      exact (hrnd.erase groupId).erase chat
    · show groupId ∉ st.asked.erase chat
      rw [he]
      simp
    · exact he
    · show (if (st.asked.erase chat).isEmpty then st.reg.erase groupId else st.reg).erase
        chat = []
      rw [if_pos hie, List.eq_nil_iff_forall_not_mem]
      intro x hx
      have hx₁ := (List.Nodup.mem_erase_iff (hrnd.erase groupId)).mp hx
      have hx₂ := (List.Nodup.mem_erase_iff hrnd).mp hx₁.2
      rcases (hiff x).mp hx₂.2 with hxa | hxg
      · exact hx₁.1 (hasked_single x hxa)
      · exact hx₂.1 hxg
  · have hie : (st.asked.erase chat).isEmpty = false := by
      simp [List.isEmpty_eq_true, he]
    refine ⟨?_, ?_, ?_, Or.inr ⟨he, ?_⟩⟩
    · exact hand.erase chat
    · show ((if (st.asked.erase chat).isEmpty then st.reg.erase groupId else st.reg).erase
        chat).Nodup
      rw [hie]
      exact hrnd.erase chat
    · show groupId ∉ st.asked.erase chat
      intro hmem
      exact hgna ((List.Nodup.mem_erase_iff hand).mp hmem).2
    · intro x
      show x ∈ (if (st.asked.erase chat).isEmpty then st.reg.erase groupId else st.reg).erase
        chat ↔ (x ∈ st.asked.erase chat ∨ x = groupId)
      rw [hie]
      show x ∈ st.reg.erase chat ↔ _
      rw [List.Nodup.mem_erase_iff hrnd, List.Nodup.mem_erase_iff hand]
      constructor
      · rintro ⟨hxc, hxr⟩
        rcases (hiff x).mp hxr with hxa | hxg
        · exact Or.inl ⟨hxc, hxa⟩
        · exact Or.inr hxg
      · rintro (⟨hxc, hxa⟩ | hxg)
        · exact ⟨hxc, (hiff x).mpr (Or.inl hxa)⟩
        · exact ⟨hxg ▸ fun h => hcg h.symm, (hiff x).mpr (Or.inr hxg)⟩

theorem agRun_inv_spec (groupId : Nat) (rs : List (Nat × Bool)) :
    ∀ st, agInv groupId st → (rs.map Prod.fst).Nodup →
      (∀ r ∈ rs, r.1 ∈ st.asked) →
      agInv groupId (agRun groupId st rs) ∧
        (agRun groupId st rs).asked.length + rs.length = st.asked.length := by
  induction rs with
  | nil =>
    intro st h _ _
    exact ⟨h, by simp [agRun]⟩
  | cons r rs ih =>
    intro st h hnd hmem
    have hr : r.1 ∈ st.asked := hmem r (by simp)
    have h₂ := ag_respond_inv groupId st r.1 r.2 h hr
    have hnd' : (rs.map Prod.fst).Nodup := (List.nodup_cons.mp (by simpa using hnd)).2
    have hhead : r.1 ∉ rs.map Prod.fst := (List.nodup_cons.mp (by simpa using hnd)).1
    have hmem' : ∀ q ∈ rs, q.1 ∈ (ag_respond groupId st r.1 r.2).asked := by
      intro q hq
      have hqa : q.1 ∈ st.asked := hmem q (List.mem_cons_of_mem r hq)
      have hqr : q.1 ≠ r.1 := by
        intro hcon
        exact hhead (hcon ▸ List.mem_map_of_mem Prod.fst hq)
      show q.1 ∈ st.asked.erase r.1
      exact (List.Nodup.mem_erase_iff h.1).mpr ⟨hqr, hqa⟩
    have hrec := ih (ag_respond groupId st r.1 r.2) h₂ hnd' hmem'
    have hlen : (ag_respond groupId st r.1 r.2).asked.length = st.asked.length - 1 :=
      List.length_erase_of_mem hr
    have hpos : 0 < st.asked.length := List.length_pos_of_mem hr
    refine ⟨hrec.1, ?_⟩
    have hlen₂ := hrec.2
    rw [hlen] at hlen₂
    have hunf : agRun groupId st (r :: rs) =
        agRun groupId (ag_respond groupId st r.1 r.2) rs := rfl
    rw [hunf]
    simp only [List.length_cons]
    omega

theorem foldl_erase_nodup (l : List Nat) :
    ∀ init : List Nat, init.Nodup → (l.foldl (fun r u => r.erase u) init).Nodup := by
  induction l with
  | nil => exact fun init h => h
  | cons u l ih => exact fun init h => ih (init.erase u) (h.erase u)

theorem mem_foldl_erase (l : List Nat) :
    ∀ (init : List Nat), init.Nodup →
      ∀ x, x ∈ l.foldl (fun r u => r.erase u) init ↔ (x ∈ init ∧ x ∉ l) := by
  induction l with
  | nil =>
    intro init _ x
    simp
  | cons u l ih =>
    intro init h x
    have hstep : (u :: l).foldl (fun r u => r.erase u) init =
        l.foldl (fun r u => r.erase u) (init.erase u) := rfl
    rw [hstep, ih (init.erase u) (h.erase u), List.Nodup.mem_erase_iff h]
    simp only [List.mem_cons]
    tauto

theorem ag_terminate_spec (leader groupId : Nat) (st : AGState)
    (hJ : agInv groupId st) :
    (ag_terminate leader groupId st).1.reg = [] ∧
    (∀ c ∈ st.asked, c ∈ (ag_terminate leader groupId st).2.1) ∧
    (∀ c, c ∈ (ag_terminate leader groupId st).2.2 ↔ (c ∈ st.asked ∧ c ≠ leader)) := by
  obtain ⟨hand, hrnd, hgna, hrel⟩ := hJ
  by_cases hlp : leader ∈ st.asked
  · refine ⟨?_, ?_, ?_⟩
    · show (((if leader ∈ st.asked then st.asked.erase leader else st.asked).foldl
        (fun r u => r.erase u)
        (if leader ∈ st.asked then st.reg.erase leader else st.reg)).erase groupId) = []
      rw [if_pos hlp, if_pos hlp, List.eq_nil_iff_forall_not_mem]
      intro x hx
      have hnd₁ : (st.reg.erase leader).Nodup := hrnd.erase leader
      have hnd₂ := foldl_erase_nodup (st.asked.erase leader) (st.reg.erase leader) hnd₁
      have hx₁ := (List.Nodup.mem_erase_iff hnd₂).mp hx
      have hx₂ := (mem_foldl_erase (st.asked.erase leader) (st.reg.erase leader) hnd₁ x).mp
        hx₁.2
      have hx₃ := (List.Nodup.mem_erase_iff hrnd).mp hx₂.1
      rcases hrel with ⟨hempty, _⟩ | ⟨_, hiff⟩
      · rw [hempty] at hlp
        exact absurd hlp (by simp)
      rcases (hiff x).mp hx₃.2 with hxa | hxg
      · exact hx₂.2 ((List.Nodup.mem_erase_iff hand).mpr ⟨hx₃.1, hxa⟩)
      · exact hx₁.1 hxg
    · intro c hc
      show c ∈ (if leader ∈ st.asked then [leader] else []) ++
        (if leader ∈ st.asked then st.asked.erase leader else st.asked)
      rw [if_pos hlp, if_pos hlp]
      by_cases hcl : c = leader
      · simp [hcl]
      · simp only [List.mem_append, List.mem_singleton]
        exact Or.inr ((List.Nodup.mem_erase_iff hand).mpr ⟨hcl, hc⟩)
    · intro c
      show c ∈ (if leader ∈ st.asked then st.asked.erase leader else st.asked) ↔ _
      rw [if_pos hlp, List.Nodup.mem_erase_iff hand]
      tauto
  · refine ⟨?_, ?_, ?_⟩
    · show (((if leader ∈ st.asked then st.asked.erase leader else st.asked).foldl
        (fun r u => r.erase u)
        (if leader ∈ st.asked then st.reg.erase leader else st.reg)).erase groupId) = []
      rw [if_neg hlp, if_neg hlp, List.eq_nil_iff_forall_not_mem]
      intro x hx
      have hnd₂ := foldl_erase_nodup st.asked st.reg hrnd
      have hx₁ := (List.Nodup.mem_erase_iff hnd₂).mp hx
      have hx₂ := (mem_foldl_erase st.asked st.reg hrnd x).mp hx₁.2
      rcases hrel with ⟨_, hregnil⟩ | ⟨_, hiff⟩
      · rw [hregnil] at hx₂
        exact absurd hx₂.1 (by simp)
      rcases (hiff x).mp hx₂.1 with hxa | hxg
      · exact hx₂.2 hxa
      · exact hx₁.1 hxg
    · intro c hc
      show c ∈ (if leader ∈ st.asked then [leader] else []) ++
        (if leader ∈ st.asked then st.asked.erase leader else st.asked)
      rw [if_neg hlp, if_neg hlp]
      simpa using hc
    · intro c
      show c ∈ (if leader ∈ st.asked then st.asked.erase leader else st.asked) ↔ _
      rw [if_neg hlp]
      constructor
      · intro hc
        exact ⟨hc, fun hcl => hlp (hcl ▸ hc)⟩
      · exact fun hc => hc.1

/-- Claim C5: a launched `AskingGroup` with the invited groupmates as its
pending set deregisters every key of the shared registry exactly at the
last distinct respondent's answer or refusal — after any shorter sequence
of responses the group key is still registered; in private mode the
leader is never pending, so their answer is never required; and the
leader's early stop strips the refuse affordance of every still-pending
respondent and informs exactly the still-pending groupmates, emptying the
registry. -/
theorem C5_broadcast_termination (leader groupId : Nat) (isPublic : Bool)
    (groupmates : List Nat) (hnd : groupmates.Nodup) (hl : leader ∉ groupmates)
    (hg : groupId ∉ groupmates) (hgl : groupId ≠ leader) (hne : groupmates ≠ []) :
    leader ∉ (ag_launch leader groupId false groupmates).asked ∧
    (∀ rs : List (Nat × Bool), (rs.map Prod.fst).Nodup →
      (∀ r ∈ rs, r.1 ∈ (ag_launch leader groupId isPublic groupmates).asked) →
      rs.length < (ag_launch leader groupId isPublic groupmates).asked.length →
      groupId ∈ (agRun groupId (ag_launch leader groupId isPublic groupmates) rs).reg) ∧
    (∀ rs : List (Nat × Bool), (rs.map Prod.fst).Nodup →
      (∀ r ∈ rs, r.1 ∈ (ag_launch leader groupId isPublic groupmates).asked) →
      rs.length = (ag_launch leader groupId isPublic groupmates).asked.length →
      (agRun groupId (ag_launch leader groupId isPublic groupmates) rs).reg = []) ∧
    (∀ rs : List (Nat × Bool), (rs.map Prod.fst).Nodup →
      (∀ r ∈ rs, r.1 ∈ (ag_launch leader groupId isPublic groupmates).asked) →
      (ag_terminate leader groupId
          (agRun groupId (ag_launch leader groupId isPublic groupmates) rs)).1.reg = [] ∧
        (∀ c ∈ (agRun groupId (ag_launch leader groupId isPublic groupmates) rs).asked,
          c ∈ (ag_terminate leader groupId
            (agRun groupId (ag_launch leader groupId isPublic groupmates) rs)).2.1) ∧
        (∀ c, c ∈ (ag_terminate leader groupId
            (agRun groupId (ag_launch leader groupId isPublic groupmates) rs)).2.2 ↔
          (c ∈ (agRun groupId (ag_launch leader groupId isPublic groupmates) rs).asked ∧
            c ≠ leader))) := by
  have hJ := ag_launch_inv leader groupId isPublic groupmates hnd hl hg hgl hne
  refine ⟨?_, ?_, ?_, ?_⟩
  · show leader ∉ groupmates ++ (if false then [leader] else [])
    simpa using hl
  · intro rs h₁ h₂ h₃
    obtain ⟨hfin, hlen⟩ := agRun_inv_spec groupId rs _ hJ h₁ h₂
    obtain ⟨_, _, _, hrel⟩ := hfin
    rcases hrel with ⟨ha, _⟩ | ⟨_, hiff⟩
    · rw [ha] at hlen
      simp at hlen
      omega
    · exact (hiff groupId).mpr (Or.inr rfl)
  · intro rs h₁ h₂ h₃
    obtain ⟨hfin, hlen⟩ := agRun_inv_spec groupId rs _ hJ h₁ h₂
    obtain ⟨_, _, _, hrel⟩ := hfin
    rcases hrel with ⟨_, hr⟩ | ⟨hnem, _⟩
    · exact hr
    · exact absurd (List.eq_nil_of_length_eq_zero (by omega)) hnem
  · intro rs h₁ h₂
    exact ag_terminate_spec leader groupId _ (agRun_inv_spec groupId rs _ hJ h₁ h₂).1

theorem C5_broadcast_termination_witness :
    (100 : Nat) ∈ (agRun 100 (ag_launch 1 100 false [2, 3]) [(2, true)]).reg ∧
    (agRun 100 (ag_launch 1 100 false [2, 3]) [(2, true), (3, false)]).reg = [] := by
  have h := C5_broadcast_termination 1 100 false [2, 3] (by decide) (by decide)
    (by decide) (by decide) (by decide)
  exact ⟨h.2.1 [(2, true)] (by decide) (by decide) (by decide),
    h.2.2.1 [(2, true), (3, false)] (by decide) (by decide) (by decide)⟩

theorem updateRole_of_not_mem {g : List Student} {id r : Nat}
    (h : ∀ s ∈ g, s.id ≠ id) : updateRole g id r = g := by
  induction g with
  | nil => rfl
  | cons s g ih =>
    have hs : s.id ≠ id := h s (by simp)
    have hg : ∀ t ∈ g, t.id ≠ id := fun t ht => h t (List.mem_cons_of_mem s ht)
    show (if s.id = id then (⟨s.id, r⟩ : Student) else s) :: updateRole g id r = s :: g
    rw [if_neg hs, ih hg]

theorem roleOf_updateRole_self {g : List Student} {id r oldR : Nat}
    (h : roleOf g id = some oldR) : roleOf (updateRole g id r) id = some r := by
  induction g with
  | nil => exact absurd h (by simp [roleOf])
  | cons s g ih =>
    by_cases hs : s.id = id
    · show ((List.find? (fun t => decide (t.id = id))
        ((if s.id = id then (⟨s.id, r⟩ : Student) else s) :: updateRole g id r)).map
          Student.role) = some r
      rw [if_pos hs, List.find?_cons_of_pos _ (by simp [hs])]
      rfl
    · have hg : roleOf g id = some oldR := by
        unfold roleOf at h
        rwa [List.find?_cons_of_neg _ (by simp [hs])] at h
      have ihg := ih hg
      show ((List.find? (fun t => decide (t.id = id))
        ((if s.id = id then (⟨s.id, r⟩ : Student) else s) :: updateRole g id r)).map
          Student.role) = some r
      rw [if_neg hs, List.find?_cons_of_neg _ (by simp [hs])]
      exact ihg

theorem roleOf_updateRole_ne {g : List Student} {id r id₂ : Nat} (h : id₂ ≠ id) :
    roleOf (updateRole g id r) id₂ = roleOf g id₂ := by
  induction g with
  | nil => rfl
  | cons s g ih =>
    by_cases hs : s.id = id
    · have hne : ¬ s.id = id₂ := by
        intro hc
        apply h
        omega
      show ((List.find? (fun t => decide (t.id = id₂))
        ((if s.id = id then (⟨s.id, r⟩ : Student) else s) :: updateRole g id r)).map
          Student.role) = roleOf (s :: g) id₂
      rw [if_pos hs, List.find?_cons_of_neg _ (by simp [hne])]
      have hform : roleOf (s :: g) id₂ =
          ((List.find? (fun t => decide (t.id = id₂)) (s :: g)).map Student.role) := rfl
      rw [hform, List.find?_cons_of_neg _ (by simp [hne])]
      exact ih
    · show ((List.find? (fun t => decide (t.id = id₂))
        ((if s.id = id then (⟨s.id, r⟩ : Student) else s) :: updateRole g id r)).map
          Student.role) = roleOf (s :: g) id₂
      rw [if_neg hs]
      by_cases hs₂ : s.id = id₂
      · rw [List.find?_cons_of_pos _ (by simp [hs₂])]
        have hform : roleOf (s :: g) id₂ =
            ((List.find? (fun t => decide (t.id = id₂)) (s :: g)).map Student.role) := rfl
        rw [hform, List.find?_cons_of_pos _ (by simp [hs₂])]
      · rw [List.find?_cons_of_neg _ (by simp [hs₂])]
        have hform : roleOf (s :: g) id₂ =
            ((List.find? (fun t => decide (t.id = id₂)) (s :: g)).map Student.role) := rfl
        rw [hform, List.find?_cons_of_neg _ (by simp [hs₂])]
        exact ih

theorem filter_length_updateRole_le (g : List Student) (tgt newR p : Nat)
    (hnd : (g.map Student.id).Nodup) :
    ((updateRole g tgt newR).filter (fun s => decide (s.role = p))).length ≤
      (g.filter (fun s => decide (s.role = p))).length + 1 := by
  induction g with
  | nil => simp [updateRole]
  | cons s g ih =>
    have hnd' : (g.map Student.id).Nodup := (List.nodup_cons.mp (by simpa using hnd)).2
    have hhead : s.id ∉ g.map Student.id := (List.nodup_cons.mp (by simpa using hnd)).1
    by_cases hs : s.id = tgt
    · have hrest : updateRole g tgt newR = g := by
        apply updateRole_of_not_mem
        intro t ht hcon
        exact hhead (hs ▸ hcon ▸ List.mem_map_of_mem Student.id ht)
      have hform : updateRole (s :: g) tgt newR = ⟨s.id, newR⟩ :: g := by
        show (if s.id = tgt then (⟨s.id, newR⟩ : Student) else s) :: updateRole g tgt newR =
          _
        rw [if_pos hs, hrest]
      rw [hform]
      by_cases hp₁ : newR = p <;> by_cases hp₂ : s.role = p <;>
        simp [List.filter_cons, hp₁, hp₂] <;> omega
    · have hform : updateRole (s :: g) tgt newR = s :: updateRole g tgt newR := by
        show (if s.id = tgt then (⟨s.id, newR⟩ : Student) else s) :: _ = _
        rw [if_neg hs]
        rfl
      rw [hform]
      have ihg := ih hnd'
      by_cases hp₂ : s.role = p <;> simp [List.filter_cons, hp₂] <;> omega

theorem updateRole_length (g : List Student) (id r : Nat) :
    (updateRole g id r).length = g.length := by
  simp [updateRole]

/-- Claim C8: starting from any group state satisfying the reachability
invariant, no sequence of /claim entries, poll answers, /trust, /distrust
and /resign ever yields two records with the leader role; a registered
leader confirmation always coexists with a leaderless group (the entry
guard found no leader and promotion happens only from the registered
confirmation); an accepted /trust leaves the admin count within the
configured admin-to-students cap; and /resign promotes the chosen
successor and demotes the resigning leader in the same step. -/
theorem C8_role_safety (quorum maxRatio : Nat) (st : GroupState) (h : groupInv st) :
    (∀ cmds, atMostOneLeader (groupRun quorum maxRatio st cmds).students) ∧
    (∀ cmds candidate lcs,
      (groupRun quorum maxRatio st cmds).pending = some (candidate, lcs) →
      ∀ s ∈ (groupRun quorum maxRatio st cmds).students, s.role ≠ leaderRole) ∧
    (∀ invoker target,
      roleOf st.students invoker = some leaderRole →
      (st.students.filter (fun s => decide (s.role = adminRole))).length + 1 ≤
        maxRatio * st.students.length →
      roleOf st.students target = some ordinaryRole →
      ((groupStep quorum maxRatio st (.trust invoker target)).students.filter
        (fun s => decide (s.role = adminRole))).length ≤
        maxRatio * (groupStep quorum maxRatio st (.trust invoker target)).students.length) ∧
    (∀ invoker successor,
      roleOf st.students invoker = some leaderRole →
      (if (st.students.filter (fun s => decide (s.role = adminRole))).length ≠ 0 then
        roleOf st.students successor = some adminRole
      else
        roleOf st.students successor = some ordinaryRole) →
      roleOf (groupStep quorum maxRatio st (.resign invoker successor)).students successor =
        some leaderRole ∧
      roleOf (groupStep quorum maxRatio st (.resign invoker successor)).students invoker =
        some adminRole) := by
  refine ⟨?_, ?_, ?_, ?_⟩
  · intro cmds
    exact (groupRun_inv quorum maxRatio st cmds h).2.1
  · intro cmds candidate lcs hp
    apply (groupRun_inv quorum maxRatio st cmds h).2.2
    rw [hp]
    simp
  · intro invoker target hg₁ hg₂ hg₃
    have hstep : groupStep quorum maxRatio st (.trust invoker target) =
        ⟨updateRole st.students target adminRole, st.pending⟩ := by
      obtain ⟨students, pending⟩ := st
      simp only [groupStep]
      rw [if_pos ⟨hg₁, hg₂, hg₃⟩]
    rw [hstep]
    have hle := filter_length_updateRole_le st.students target adminRole adminRole h.1
    have hlen := updateRole_length st.students target adminRole
    calc ((updateRole st.students target adminRole).filter
          (fun s => decide (s.role = adminRole))).length
        ≤ (st.students.filter (fun s => decide (s.role = adminRole))).length + 1 := hle
      _ ≤ maxRatio * st.students.length := hg₂
      _ = maxRatio * (updateRole st.students target adminRole).length := by rw [hlen]
  · intro invoker successor hg₁ hg₂
    have hstep : groupStep quorum maxRatio st (.resign invoker successor) =
        ⟨updateRole (updateRole st.students successor leaderRole) invoker adminRole,
          st.pending⟩ := by
      obtain ⟨students, pending⟩ := st
      simp only [groupStep]
      rw [if_pos ⟨hg₁, hg₂⟩]
    have hsuccrole : ∃ r₀, roleOf st.students successor = some r₀ ∧ r₀ ≠ leaderRole := by
      by_cases hadm :
        (st.students.filter (fun s => decide (s.role = adminRole))).length ≠ 0
      · rw [if_pos hadm] at hg₂
        exact ⟨adminRole, hg₂, by simp [adminRole, leaderRole]⟩
      · rw [if_neg hadm] at hg₂
        exact ⟨ordinaryRole, hg₂, by simp [ordinaryRole, leaderRole]⟩
    obtain ⟨r₀, hr₀, hr₀ne⟩ := hsuccrole
    have hne : invoker ≠ successor := by
      intro hcon
      rw [hcon, hr₀] at hg₁
      exact hr₀ne (Option.some_injective _ hg₁)
    rw [hstep]
    constructor
    · show roleOf (updateRole (updateRole st.students successor leaderRole) invoker
        adminRole) successor = some leaderRole
      rw [roleOf_updateRole_ne (fun hc => hne hc.symm)]
      exact roleOf_updateRole_self hr₀
    · show roleOf (updateRole (updateRole st.students successor leaderRole) invoker
        adminRole) invoker = some adminRole
      have hinv₂ : roleOf (updateRole st.students successor leaderRole) invoker =
          some leaderRole := by
        rw [roleOf_updateRole_ne hne]
        exact hg₁
      exact roleOf_updateRole_self hinv₂

theorem C8_role_safety_witness :
    groupInv ⟨[⟨1, 2⟩, ⟨2, 0⟩, ⟨3, 0⟩], none⟩ ∧
    atMostOneLeader (groupRun 1 1 ⟨[⟨1, 2⟩, ⟨2, 0⟩, ⟨3, 0⟩], none⟩
      [.trust 1 2, .resign 1 2, .distrust 2 1]).students ∧
    ((groupStep 1 1 ⟨[⟨1, 2⟩, ⟨2, 0⟩, ⟨3, 0⟩], none⟩ (.trust 1 2)).students.filter
      (fun s => decide (s.role = adminRole))).length ≤
      1 * (groupStep 1 1 ⟨[⟨1, 2⟩, ⟨2, 0⟩, ⟨3, 0⟩], none⟩ (.trust 1 2)).students.length ∧
    roleOf (groupStep 1 1 ⟨[⟨1, 2⟩, ⟨2, 0⟩, ⟨3, 0⟩], none⟩
      (.resign 1 2)).students 2 = some leaderRole := by
  have h := C8_role_safety 1 1 ⟨[⟨1, 2⟩, ⟨2, 0⟩, ⟨3, 0⟩], none⟩ (by decide)
  refine ⟨by decide, h.1 [.trust 1 2, .resign 1 2, .distrust 2 1], ?_, ?_⟩
  · exact h.2.2.1 1 2 (by decide) (by decide) (by decide)
  · exact (h.2.2.2 1 2 (by decide) (by decide)).1

end EduBot
